import Mathlib

/-!
Verification of the hybrid vector search and caching engine of the
microservices-rag-system repository.  The Python sources are shallowly
embedded as executable Lean definitions: float scores become exact
rationals, Python dicts become insertion-ordered association lists, the
stable Timsort behind list.sort becomes a stable insertion sort, and the
FAISS library calls are modelled by their documented contract (inner
product search over the stored rows, best score first).
-/

namespace RagSpec

/-- Document entity consumed by the search strategies
(src/src/domain/entities/vector_document.py).  Only the fields the verified
claims depend on are carried. -/
structure VectorDocument where
  id : String
  text : String
deriving Repr, DecidableEq

/-- Strategy-level search result
(src/src/domain/strategies/search_strategy.py, class SearchResult). -/
structure SearchResult where
  document : VectorDocument
  score : ℚ
  search_type : String
deriving Repr, DecidableEq

section StableSort

variable {α : Type}

/-- Stable insertion: the inserted element r (which occurred earlier in the
input) stays in front of every later element x for which le r x holds.
Together with sortBy this models Python list.sort, which is stable. -/
def insertBy (le : α → α → Bool) (r : α) : List α → List α
  | [] => [r]
  | x :: xs => if le r x then r :: x :: xs else x :: insertBy le r xs

/-- Stable sort modelling Python list.sort with the given precedence test. -/
def sortBy (le : α → α → Bool) : List α → List α
  | [] => []
  | x :: xs => insertBy le x (sortBy le xs)

end StableSort

/-- Descending comparison on scores used by every results sort in the source
(results.sort with the score key, reverse order). -/
def srLe (a b : SearchResult) : Bool := decide (b.score ≤ a.score)

/-- Characters matched by the word token of the regex in
ExactSearchStrategy._extract_keywords: ASCII letters, digits, the underscore,
and the Cyrillic block actually used by the data. -/
def isWordChar (c : Char) : Bool :=
  c.isAlphanum || c == '_' || (0x400 ≤ c.toNat && c.toNat ≤ 0x4FF)

/-- Accumulating splitter: cuts a character list into maximal runs of word
characters, modelling re.findall over the word pattern. -/
def splitWordsAux : List Char → List Char → List String
  | [], acc => if acc.isEmpty then [] else [String.mk acc.reverse]
  | c :: cs, acc =>
    if isWordChar c then splitWordsAux cs (c :: acc)
    else if acc.isEmpty then splitWordsAux cs []
    else String.mk acc.reverse :: splitWordsAux cs []

/-- Tokenizer used by ExactSearchStrategy._extract_keywords. -/
def splitWords (s : String) : List String := splitWordsAux s.data []

/-- Lowercasing of one character as done by str.lower on the alphabets the
repository handles: ASCII plus the Cyrillic letters. -/
def toLowerRu (c : Char) : Char :=
  if 0x410 ≤ c.toNat ∧ c.toNat ≤ 0x42F then Char.ofNat (c.toNat + 0x20)
  else if c.toNat = 0x401 then Char.ofNat 0x451
  else c.toLower

/-- Lowercasing of a string, modelling str.lower. -/
def lowerStr (s : String) : String := String.mk (s.data.map toLowerRu)

/-- Stop words removed by ExactSearchStrategy._extract_keywords
(src/src/infrastructure/strategies/exact_search_strategy.py). -/
def stopWords : List String :=
  ["и", "в", "на", "с", "по", "для", "от", "до", "из", "за", "о", "об",
   "а", "но", "или", "что", "как", "где", "когда"]

/-- ExactSearchStrategy._extract_keywords: word tokens of the query that are
not stop words and are longer than two characters. -/
def extractKeywords (query : String) : List String :=
  (splitWords query).filter (fun w => !stopWords.contains w && 2 < w.length)

/-- Test whether the pattern is an initial segment of the text. -/
def startsWithChars : List Char → List Char → Bool
  | [], _ => true
  | _ :: _, [] => false
  | a :: as, b :: bs => a == b && startsWithChars as bs

/-- Substring containment over character lists, modelling the Python
membership test of a word inside a text. -/
def containsSub : List Char → List Char → Bool
  | [], pat => pat.isEmpty
  | t :: ts, pat => startsWithChars pat (t :: ts) || containsSub ts pat

/-- ExactSearchStrategy._calculate_exact_score: the count of query words
contained in the text divided by the total number of query words. -/
def calculateExactScore (queryWords : List String) (text : String) : ℚ :=
  if queryWords.isEmpty then 0
  else
    ((queryWords.countP (fun w => containsSub text.data w.data) : ℚ) /
      (queryWords.length : ℚ))

/-- ExactSearchStrategy.search: score each document, keep the ones with a
positive score, sort by descending score (stable) and keep top_k. -/
def exactSearch (query : String) (documents : List VectorDocument)
    (top_k : Nat) : List SearchResult :=
  let queryWords := extractKeywords (lowerStr query)
  let results := documents.filterMap (fun d =>
    let score := calculateExactScore queryWords (lowerStr d.text)
    if 0 < score then
      some { document := d, score := score, search_type := "exact" }
    else none)
  (sortBy srLe results).take top_k

/-- Conflict resolution of HybridSearchStrategy.search step 4: an entry that
is already present keeps its slot and is replaced in place when the new
result for the same document id has a strictly better score. -/
def updateEntry (r x : SearchResult) : SearchResult :=
  if x.document.id = r.document.id ∧ x.score < r.score then r else x

/-- One step of the deduplicating dict build of HybridSearchStrategy.search:
a known document id updates its existing slot, a fresh id is appended. -/
def insertUnique (acc : List SearchResult) (r : SearchResult) :
    List SearchResult :=
  if acc.any (fun x => x.document.id == r.document.id) then
    acc.map (updateEntry r)
  else acc ++ [r]

/-- Deduplication by document id over the combined result list, modelling the
insertion-ordered Python dict of HybridSearchStrategy.search. -/
def dedupById (l : List SearchResult) : List SearchResult :=
  l.foldl insertUnique []

/-- Type of a pluggable search strategy
(SearchStrategy.search in src/src/domain/strategies/search_strategy.py). -/
abbrev Strategy := String → List VectorDocument → Nat → List SearchResult

/-- HybridSearchStrategy.search: run the exact pass; when some exact result
scores above one half return those immediately, otherwise merge with the
semantic pass, deduplicate by document id, sort by descending score and keep
top_k. -/
def hybridSearch (exactS semS : Strategy) (query : String)
    (documents : List VectorDocument) (top_k : Nat) : List SearchResult :=
  let exactResults := exactS query documents top_k
  let goodExact := exactResults.filter (fun r => decide ((1 : ℚ)/2 < r.score))
  if goodExact.isEmpty then
    let semanticResults := semS query documents top_k
    let combined := exactResults ++ semanticResults
    let unique := dedupById combined
    (sortBy srLe unique).take top_k
  else goodExact.take top_k

/-- Inner product of two vectors (matching rows are multiplied pairwise). -/
def dot (a b : List ℚ) : ℚ := (a.zip b).foldl (fun s p => s + p.1 * p.2) 0

/-- Rational square root, exact on perfect squares; models the real square
root inside np.linalg.norm for the inputs the witnesses use. -/
def ratSqrt (x : ℚ) : ℚ := (Int.sqrt x.num : ℚ) / (Nat.sqrt x.den : ℚ)

/-- L2 normalization of a query vector (faiss.normalize_L2 and the explicit
division by np.linalg.norm in the optimized repository). -/
def normalizeQ (v : List ℚ) : List ℚ :=
  let n := ratSqrt (dot v v)
  v.map (fun x => x / n)

/-- Contract of an inner product FAISS index search (IndexFlatIP): score
every stored row against the query, order by descending score (ties keep the
row order) and return the best k rows with their positions. -/
def faissIPSearch (vecs : List (List ℚ)) (q : List ℚ) (k : Nat) :
    List (ℚ × Int) :=
  let scored := vecs.enum.map (fun p => (dot q p.2, (p.1 : Int)))
  (sortBy (fun a b => decide (b.1 ≤ a.1)) scored).take k

/-- SemanticSearchStrategy.search: a missing encoder or index gives no
results, an encoder failure is caught and gives no results, otherwise the
query embedding is normalized, the index is searched and positions are
resolved through document_ids back to documents. -/
def semanticSearchStrategy (encoder : Option (String → Except Unit (List ℚ)))
    (index : Option (List (List ℚ))) (document_ids : List String) : Strategy :=
  fun query documents top_k =>
    match encoder, index with
    | none, _ => []
    | some _, none => []
    | some enc, some idx =>
      match enc query with
      | .error _ => []
      | .ok emb =>
        let q := normalizeQ emb
        let cands := faissIPSearch idx q (min top_k document_ids.length)
        cands.filterMap (fun c =>
          match document_ids.get? c.2.toNat with
          | some docId =>
            match documents.find? (fun d => d.id == docId) with
            | some d =>
              some { document := d, score := c.1, search_type := "semantic" }
            | none => none
          | none => none)

/-- Stored document of the vector store repositories
(src/services/vectorstore/domain/entities/vector_document.py).  Only the
content field matters to the verified claims; metadata is dropped. -/
structure StoredDoc where
  content : String
deriving Repr, DecidableEq

/-- Vector store level search result
(src/services/vectorstore/domain/entities/vector_document.py, SearchResult).
The distance field is filled with one minus the relevance score exactly as
the dataclass post init does. -/
structure VSearchResult where
  document_id : String
  content : String
  relevance_score : ℚ
  distance : ℚ
deriving Repr, DecidableEq

/-- Lookup in an insertion-ordered Python dict modelled as an association
list (dict.get). -/
def lookupDoc (m : List (String × StoredDoc)) (k : String) :
    Option StoredDoc :=
  (m.find? (fun p => p.1 == k)).map (fun p => p.2)

/-- Python dict assignment: an existing key is overwritten in place, a fresh
key is appended at the end. -/
def dictInsert (m : List (String × StoredDoc)) (k : String) (v : StoredDoc) :
    List (String × StoredDoc) :=
  if m.any (fun p => p.1 == k) then
    m.map (fun p => if p.1 == k then (k, v) else p)
  else m ++ [(k, v)]

/-- In-memory state of OptimizedFAISSRepository
(src/services/vectorstore/infrastructure/persistence/optimized_faiss_repository.py).
The FAISS handle is the list of stored rows plus the trained flag of an IVF
index; trainSizes records the sample size of every training call and
addsUntrained counts additions performed on an untrained IVF index, which
the FAISS contract rejects.  rcache is the Redis result cache keyed by the
query embedding, top_k and threshold. -/
structure OptState where
  indexType : String
  nlist : Nat
  isTrained : Bool
  trainSizes : List Nat
  addsUntrained : Nat
  index : List (List ℚ)
  docs : List (String × StoredDoc)
  rcache : List ((List ℚ × Nat × ℚ) × List VSearchResult)
deriving Repr, DecidableEq

/-- Fresh OptimizedFAISSRepository state for a given index type and nlist
(_create_new_index: a new IVF index starts untrained, the other index kinds
need no training). -/
def initState (indexType : String) (nlist : Nat) : OptState :=
  { indexType := indexType, nlist := nlist,
    isTrained := !(indexType == "IndexIVFFlat"), trainSizes := [],
    addsUntrained := 0, index := [], docs := [], rcache := [] }

/-- Error raised by the FAISS library during ingestion: clustering requires
at least nlist training points, so train on a smaller sample throws. -/
inductive FaissErr where
  | trainTooFewPoints
deriving Repr, DecidableEq

/-- index.train on the FAISS handle: clustering into nlist buckets demands a
sample of at least nlist points and throws otherwise; on success the index
becomes trained and the sample size is recorded. -/
def ivfTrain (st : OptState) (sample : List (List ℚ)) :
    Except FaissErr OptState :=
  if sample.length < st.nlist then .error .trainTooFewPoints
  else .ok { st with
    isTrained := true, trainSizes := st.trainSizes ++ [sample.length] }

/-- index.add on the FAISS handle: appends the rows; an addition to an
untrained IVF index violates the FAISS contract and is counted. -/
def indexAdd (st : OptState) (vecs : List (List ℚ)) : OptState :=
  { st with
    index := st.index ++ vecs,
    addsUntrained := st.addsUntrained +
      (if st.indexType = "IndexIVFFlat" ∧ st.isTrained = false then
        vecs.length else 0) }

/-- OptimizedFAISSRepository.save_document: embed the content, train an
untrained IVF index on that single embedding (a failed training raises out
of save_document, which re-raises every exception), add the row, then
assign the next id as the string of the current document count and store
the document (the result cache is left untouched).  The encoder is a
parameter since the sentence transformer model is outside the repository. -/
def saveDocument (enc : String → List ℚ) (st : OptState) (d : StoredDoc) :
    Except FaissErr (String × OptState) :=
  let emb := enc d.content
  let trained : Except FaissErr OptState :=
    if st.indexType = "IndexIVFFlat" ∧ st.isTrained = false then
      ivfTrain st [emb]
    else .ok st
  match trained with
  | .error e => .error e
  | .ok st1 =>
    let st2 := indexAdd st1 [emb]
    let docId := toString st2.docs.length
    .ok (docId, { st2 with docs := dictInsert st2.docs docId d })

/-- OptimizedFAISSRepository.add_documents: sequential save_document calls,
collecting the ids of the successful saves; a save_document exception is
caught, logged and the document skipped, leaving the state untouched. -/
def addDocuments (enc : String → List ℚ) (st : OptState) :
    List StoredDoc → List String × OptState
  | [] => ([], st)
  | d :: rest =>
    match saveDocument enc st d with
    | .ok r =>
      let rr := addDocuments enc r.2 rest
      (r.1 :: rr.1, rr.2)
    | .error _ => addDocuments enc st rest

/-- Result assembly loop of OptimizedFAISSRepository.search_similar (lines
200 to 229): walk the candidates, keep the ones at or above the threshold
while fewer than top_k results are collected, resolve the position as the id
string and drop candidates whose document is missing from the cache. -/
def optStep (cache : List (String × StoredDoc)) (top_k : Nat) (t : ℚ)
    (acc : List VSearchResult) (c : ℚ × Int) : List VSearchResult :=
  if t ≤ c.1 ∧ acc.length < top_k then
    match lookupDoc cache (toString c.2) with
    | some d =>
      acc ++ [{ document_id := toString c.2, content := d.content,
                relevance_score := c.1, distance := 1 - c.1 }]
    | none => acc
  else acc

/-- Result assembly loop of OptimizedFAISSRepository.search_similar: fold the
filtering step over the candidate list starting from an empty result list. -/
def optAssemble (cache : List (String × StoredDoc)) (top_k : Nat) (t : ℚ)
    (cands : List (ℚ × Int)) : List VSearchResult :=
  cands.foldl (optStep cache top_k t) []

/-- OptimizedFAISSRepository.search_similar: a result cached under the same
embedding, top_k and threshold is returned as is; otherwise the query is
normalized, the index searched with twice top_k capped at the row count, the
results assembled and stored in the cache.  Document mutations never touch
rcache, exactly as in the source. -/
def searchSimilar (st : OptState) (qe : List ℚ) (top_k : Nat) (t : ℚ) :
    List VSearchResult × OptState :=
  let key := (qe, top_k, t)
  match st.rcache.find? (fun p => decide (p.1 = key)) with
  | some p => (p.2, st)
  | none =>
    let qn := normalizeQ qe
    let searchK := min (top_k * 2) st.index.length
    let cands := faissIPSearch st.index qn searchK
    let results := optAssemble st.docs top_k t cands
    (results, { st with rcache := st.rcache ++ [(key, results)] })

/-- OptimizedFAISSRepository._rebuild_index_without_document together with
delete_document: the id is removed from the cache, a fresh index is created
(an IVF index restarts untrained) and the remaining embeddings are added
back in cache order without any training call. -/
def optDelete (enc : String → List ℚ) (st : OptState) (id : String) :
    Bool × OptState :=
  if st.docs.any (fun p => p.1 == id) then
    let docs2 := st.docs.filter (fun p => !(p.1 == id))
    (true,
      { st with
        docs := docs2,
        index := docs2.map (fun p => enc p.2.content),
        isTrained := !(st.indexType == "IndexIVFFlat"),
        trainSizes := st.trainSizes,
        addsUntrained := st.addsUntrained +
          (if st.indexType = "IndexIVFFlat" then docs2.length else 0) })
  else (false, st)

/-- Alignment invariant behind the id scheme of OptimizedFAISSRepository:
every row position of the index resolves through the document cache (as
search_similar does, by the string of the position) to a document whose
embedding is that row. -/
def alignedB (enc : String → List ℚ) (st : OptState) : Bool :=
  (List.range st.index.length).all (fun i =>
    match lookupDoc st.docs (toString i) with
    | some d => st.index.getD i [] == enc d.content
    | none => false)

/-- Document entry of FAISSRepository
(src/services/vectorstore/infrastructure/persistence/faiss_repository.py):
the caller supplies the id and an optional embedding. -/
structure FDoc where
  content : String
  embedding : Option (List ℚ)
deriving Repr, DecidableEq

/-- Python truthiness of the optional embedding: None and the empty list are
falsy, so only a nonempty embedding reaches the index. -/
def embTruthy : Option (List ℚ) → Bool
  | some l => !l.isEmpty
  | none => false

/-- In-memory state of FAISSRepository: the insertion-ordered document dict
and the flat index rows. -/
structure FaissState where
  documents : List (String × FDoc)
  index : List (List ℚ)
deriving Repr, DecidableEq

/-- FAISSRepository.save_document: store the document under its id and
append the embedding row when the embedding is truthy. -/
def faissSave (st : FaissState) (docId : String) (d : FDoc) : FaissState :=
  { documents :=
      (if st.documents.any (fun p => p.1 == docId) then
        st.documents.map (fun p => if p.1 == docId then (docId, d) else p)
      else st.documents ++ [(docId, d)]),
    index :=
      if embTruthy d.embedding then st.index ++ [d.embedding.getD []]
      else st.index }

/-- FAISSRepository.rebuild_index: a fresh flat index filled with the truthy
embeddings of the surviving documents in dict order. -/
def faissRebuild (st : FaissState) : FaissState :=
  { st with
    index := st.documents.filterMap (fun p =>
      if embTruthy p.2.embedding then some (p.2.embedding.getD []) else none) }

/-- FAISSRepository.delete_document: a missing id returns false and changes
nothing; a present id is removed from the dict and the index is rebuilt. -/
def faissDelete (st : FaissState) (id : String) : Bool × FaissState :=
  if st.documents.any (fun p => p.1 == id) then
    (true, faissRebuild
      { st with documents := st.documents.filter (fun p => !(p.1 == id)) })
  else (false, st)

/-- Result assembly of FAISSRepository.search_similar (lines 118 to 132):
keep candidates at or above the threshold whose position is not the FAISS
sentinel minus one, and resolve the position through the ordered dict keys.
FAISS only yields the sentinel or positions below the row count, so the
out-of-range branch cannot fire on outputs of the index. -/
def faissAssemble (documents : List (String × FDoc)) (t : ℚ)
    (cands : List (ℚ × Int)) : List VSearchResult :=
  cands.filterMap (fun c =>
    if t ≤ c.1 ∧ c.2 ≠ -1 then
      match documents.get? c.2.toNat with
      | some p =>
        some { document_id := p.1, content := p.2.content,
               relevance_score := c.1, distance := 1 - c.1 }
      | none => none
    else none)

/-- Serialized manifest written by
OptimizedFAISSRepository._save_index_async: an ordered map from the id to
the text of each cached document. -/
def saveManifest (docs : List (String × StoredDoc)) : List (String × String) :=
  docs.map (fun p => (p.1, p.2.content))

/-- Lexicographic character comparison, modelling the Python comparison of
two strings by code points. -/
def strLeChars : List Char → List Char → Bool
  | [], _ => true
  | _ :: _, [] => false
  | a :: as, b :: bs =>
    if a < b then true else if b < a then false else strLeChars as bs

/-- String comparison used when the manifest entries are sorted by key. -/
def strLe (a b : String) : Bool := strLeChars a.data b.data

/-- Document loading of OptimizedFAISSRepository._load_index: sort the
manifest entries by their string key (Python sorted over the dict items),
then renumber the documents with their position as the new id. -/
def loadDocs (manifest : List (String × String)) :
    List (String × StoredDoc) :=
  ((sortBy (fun a b => strLe a.1 b.1) manifest).enum).map
    (fun p => (toString p.1, { content := p.2.2 }))

/-- Alignment of a loaded state: every index row matches the embedding of
the document loaded at that position. -/
def roundTripAlignedB (enc : String → List ℚ) (st : OptState) : Bool :=
  let loaded := loadDocs (saveManifest st.docs)
  (List.range st.index.length).all (fun i =>
    match loaded.get? i with
    | some p => st.index.getD i [] == enc p.2.content
    | none => false)

/-- Document id projection of a result list. -/
def docIds (l : List SearchResult) : List String :=
  l.map (fun r => r.document.id)

/-! Concrete instances used by witnesses and counterexamples. -/

/-- Toy deterministic encoder: one row holding the character count of the
text.  It stands in for the sentence transformer model, which the claims
treat as a black box. -/
def encLen : String → List ℚ := fun s => [(s.length : ℚ)]

/-- Toy encoder producing a fixed unit vector. -/
def encUnit : String → List ℚ := fun _ => [1, 0]

/-- Toy encoder that always fails, modelling an unavailable or timed out
sentence transformer. -/
def encFail : String → Except Unit (List ℚ) := fun _ => .error ()

/-- First sample document for the strategy-level runs. -/
def docA : VectorDocument := { id := "A", text := "ta" }

/-- Second sample document for the strategy-level runs. -/
def docB : VectorDocument := { id := "B", text := "tb" }

/-- Exact pass output for the merge tie counterexample: two exact results
below the strong-match bound, the better one on document B. -/
def exTie : List SearchResult :=
  [{ document := docA, score := 3/10, search_type := "exact" },
   { document := docB, score := 2/5, search_type := "exact" }]

/-- Semantic pass output for the merge tie counterexample: one semantic
result on document A whose score ties with the exact result on B. -/
def semTie : List SearchResult :=
  [{ document := docA, score := 2/5, search_type := "semantic" }]

/-- Exact pass output holding one strong match, above the one half bound. -/
def exStrong : List SearchResult :=
  [{ document := docA, score := 3/5, search_type := "exact" }]

/-- State reached in the optimized repository after saving two documents
into a fresh flat index (flat saves never train, hence never fail). -/
def c1AfterSaves : OptState :=
  (addDocuments encLen (initState "IndexFlatIP" 100)
    [{ content := "a" }, { content := "bb" }]).2

/-- State reached after then deleting document id zero. -/
def c1AfterDelete : Bool × OptState := optDelete encLen c1AfterSaves "0"

/-- Save issued after the deletion, to observe the id it hands out. -/
def c1AfterReuse : List String × OptState :=
  addDocuments encLen c1AfterDelete.2 [{ content := "ccc" }]

/-- First search of the cache-staleness run: empty flat index. -/
def c4First : List VSearchResult × OptState :=
  searchSimilar (initState "IndexFlatIP" 100) [1, 0] 5 (3/10)

/-- Mutation of the cache-staleness run: one document is ingested after the
first search. -/
def c4Saved : List String × OptState :=
  addDocuments encUnit c4First.2 [{ content := "a" }]

/-- Second identical search, answered from the result cache. -/
def c4Second : List VSearchResult × OptState :=
  searchSimilar c4Saved.2 [1, 0] 5 (3/10)

/-- The same search recomputed against the mutated collection, obtained by
clearing the result cache first. -/
def c4Fresh : List VSearchResult × OptState :=
  searchSimilar { c4Saved.2 with rcache := [] } [1, 0] 5 (3/10)

/-- Documents with pairwise distinct lengths, so that encLen separates
them. -/
def mkDocs (n : Nat) : List StoredDoc :=
  (List.range n).map (fun i =>
    { content := String.mk (List.replicate (i + 1) 'x') })

/-- Optimized repository state after ingesting three documents. -/
def c5Small : OptState :=
  (addDocuments encLen (initState "IndexFlatIP" 100) (mkDocs 3)).2

/-- Optimized repository state after ingesting eleven documents, enough for
the string-sorted manifest keys to leave numeric order. -/
def c5Big : OptState :=
  (addDocuments encLen (initState "IndexFlatIP" 100) (mkDocs 11)).2

/-- Sample documents for the spec scenario of the exact search. -/
def docsRu : List VectorDocument :=
  [{ id := "0", text := "запрещённая книга А" },
   { id := "1", text := "обычный текст" },
   { id := "2", text := "запрещённая книга А копия" }]

/-- Sample FAISS repository state with one stored document, for the delete
witness. -/
def fStateA : FaissState :=
  faissSave { documents := [], index := [] } "d0"
    { content := "a", embedding := some [1, 0] }

/-- Sample optimized repository state with one stored document, for the
delete witness. -/
def oStateA : OptState :=
  (addDocuments encUnit (initState "IndexFlatIP" 100) [{ content := "a" }]).2


/-! Helper lemmas. -/

section SortLemmas

variable {α : Type}

theorem mem_insertBy (le : α → α → Bool) (r : α) (l : List α) (a : α) :
    a ∈ insertBy le r l ↔ a = r ∨ a ∈ l := by
  induction l with
  | nil => simp [insertBy]
  | cons x xs ih =>
    simp only [insertBy]
    by_cases h : le r x = true
    · rw [if_pos h]
      simp only [List.mem_cons]
    · rw [if_neg h]
      simp only [List.mem_cons, ih]
      tauto

theorem mem_sortBy (le : α → α → Bool) (l : List α) (a : α) :
    a ∈ sortBy le l ↔ a ∈ l := by
  induction l with
  | nil => simp [sortBy]
  | cons x xs ih => simp [sortBy, mem_insertBy, ih]

theorem insertBy_perm (le : α → α → Bool) (r : α) (l : List α) :
    List.Perm (insertBy le r l) (r :: l) := by
  induction l with
  | nil => simp [insertBy]
  | cons x xs ih =>
    simp only [insertBy]
    by_cases h : le r x = true
    · rw [if_pos h]
    · rw [if_neg h]
      exact (ih.cons x).trans (List.Perm.swap r x xs)

theorem sortBy_perm (le : α → α → Bool) (l : List α) :
    List.Perm (sortBy le l) l := by
  induction l with
  | nil => simp [sortBy]
  | cons x xs ih =>
    exact (insertBy_perm le x (sortBy le xs)).trans (ih.cons x)

/-- Pairwise property of a stable insertion.  The combined relation records
both the ordering component (le holds forward) and a residual relation R on
would-be ties (le holds in both directions). -/
theorem pairwise_insertBy (le : α → α → Bool) (R : α → α → Prop)
    (htot : ∀ a b, le a b = true ∨ le b a = true)
    (htrans : ∀ a b c, le a b = true → le b c = true → le a c = true)
    (r : α) (l : List α)
    (hl : l.Pairwise (fun a b => le a b = true ∧ (le b a = true → R a b)))
    (hr : ∀ x ∈ l, le x r = true → R r x) :
    (insertBy le r l).Pairwise
      (fun a b => le a b = true ∧ (le b a = true → R a b)) := by
  induction l with
  | nil => simp [insertBy]
  | cons x xs ih =>
    rcases List.pairwise_cons.mp hl with ⟨hx, hxs⟩
    by_cases h : le r x
    · simp only [insertBy, h, ite_true]
      refine List.pairwise_cons.mpr ⟨?_, hl⟩
      intro y hy
      rcases List.mem_cons.mp hy with rfl | hy2
      · exact ⟨h, fun hxr => hr y (List.mem_cons_self _ _) hxr⟩
      · have hxy := hx y hy2
        refine ⟨htrans r x y h hxy.1, ?_⟩
        intro hyr
        exact hr y (List.mem_cons.mpr (Or.inr hy2)) hyr
    · have hxr : le x r = true := by
        rcases htot r x with hc | hc
        · exact absurd hc h
        · exact hc
      simp only [insertBy, h, ite_false]
      refine List.pairwise_cons.mpr ⟨?_, ?_⟩
      · intro y hy
        rcases (mem_insertBy le r xs y).mp hy with rfl | hy2
        · refine ⟨hxr, ?_⟩
          intro hry
          exact absurd hry h
        · exact hx y hy2
      · exact ih hxs (fun z hz => hr z (List.mem_cons.mpr (Or.inr hz)))

/-- Pairwise property of the stable sort: the output is ordered by le, and on
ties (le in both directions) the residual relation R is inherited from the
relative order of the input. -/
theorem pairwise_sortBy (le : α → α → Bool) (R : α → α → Prop)
    (htot : ∀ a b, le a b = true ∨ le b a = true)
    (htrans : ∀ a b c, le a b = true → le b c = true → le a c = true)
    (l : List α) (hl : l.Pairwise (fun a b => le b a = true → R a b)) :
    (sortBy le l).Pairwise
      (fun a b => le a b = true ∧ (le b a = true → R a b)) := by
  induction l with
  | nil => simp [sortBy]
  | cons x xs ih =>
    rcases List.pairwise_cons.mp hl with ⟨hx, hxs⟩
    refine pairwise_insertBy le R htot htrans x (sortBy le xs) (ih hxs) ?_
    intro z hz hzx
    exact hx z ((mem_sortBy le xs z).mp hz) hzx


end SortLemmas

theorem srLe_total (a b : SearchResult) : srLe a b = true ∨ srLe b a = true := by
  simp only [srLe, decide_eq_true_eq]
  exact le_total b.score a.score

theorem srLe_trans (a b c : SearchResult) :
    srLe a b = true → srLe b c = true → srLe a c = true := by
  simp only [srLe, decide_eq_true_eq]
  intro h1 h2
  exact le_trans h2 h1

theorem updateEntry_id (r x : SearchResult) :
    (updateEntry r x).document.id = x.document.id := by
  unfold updateEntry
  by_cases h : x.document.id = r.document.id ∧ x.score < r.score
  · rw [if_pos h, h.1]
  · rw [if_neg h]

theorem any_id_iff (acc : List SearchResult) (r : SearchResult) :
    (acc.any (fun x => x.document.id == r.document.id) = true) ↔
      r.document.id ∈ docIds acc := by
  simp only [List.any_eq_true, beq_iff_eq, docIds, List.mem_map]

theorem docIds_insertUnique (acc : List SearchResult) (r : SearchResult) :
    docIds (insertUnique acc r) =
      if r.document.id ∈ docIds acc then docIds acc
      else docIds acc ++ [r.document.id] := by
  unfold insertUnique
  by_cases h : r.document.id ∈ docIds acc
  · rw [if_pos ((any_id_iff acc r).mpr h), if_pos h]
    unfold docIds
    rw [List.map_map]
    exact List.map_congr_left (fun x _ => updateEntry_id r x)
  · rw [if_neg (fun hc => h ((any_id_iff acc r).mp hc)), if_neg h]
    simp [docIds]

theorem nodup_docIds_foldl (l : List SearchResult) :
    ∀ acc : List SearchResult, (docIds acc).Nodup →
      (docIds (List.foldl insertUnique acc l)).Nodup := by
  induction l with
  | nil => intro acc h; simpa using h
  | cons x xs ih =>
    intro acc h
    rw [List.foldl_cons]
    apply ih
    rw [docIds_insertUnique]
    by_cases hm : x.document.id ∈ docIds acc
    · rw [if_pos hm]; exact h
    · rw [if_neg hm]
      refine List.Nodup.append h (List.nodup_singleton _) ?_
      intro id hid hid2
      rw [List.mem_singleton] at hid2
      subst hid2
      exact hm hid

theorem nodup_docIds_dedup (l : List SearchResult) :
    (docIds (dedupById l)).Nodup :=
  nodup_docIds_foldl l [] (by simp [docIds])

theorem foldl_insertUnique_spec (l : List SearchResult) :
    ∀ (p acc : List SearchResult),
      (∀ r ∈ acc, r ∈ p ∧ ∀ s ∈ p, s.document.id = r.document.id →
        s.score ≤ r.score) →
      (∀ s ∈ p, s.document.id ∈ docIds acc) →
      ((∀ r ∈ List.foldl insertUnique acc l, r ∈ p ++ l ∧
          ∀ s ∈ p ++ l, s.document.id = r.document.id → s.score ≤ r.score) ∧
        (∀ s ∈ p ++ l,
          s.document.id ∈ docIds (List.foldl insertUnique acc l))) := by
  induction l with
  | nil =>
    intro p acc h1 h2
    constructor
    · intro r hr
      have := h1 r (by simpa using hr)
      exact ⟨by simpa using this.1, fun s hs => this.2 s (by simpa using hs)⟩
    · intro s hs
      have := h2 s (by simpa using hs)
      simpa using this
  | cons x xs ih =>
    intro p acc h1 h2
    rw [List.foldl_cons]
    have hstep1 : ∀ r ∈ insertUnique acc x, r ∈ p ++ [x] ∧
        ∀ s ∈ p ++ [x], s.document.id = r.document.id →
          s.score ≤ r.score := by
      intro r hr
      unfold insertUnique at hr
      by_cases hm : (acc.any fun y => y.document.id == x.document.id) = true
      · rw [if_pos hm] at hr
        rcases List.mem_map.mp hr with ⟨y, hy, hye⟩
        have hyinv := h1 y hy
        unfold updateEntry at hye
        by_cases hc : y.document.id = x.document.id ∧ y.score < x.score
        · rw [if_pos hc] at hye
          subst hye
          refine ⟨List.mem_append_right _ (List.mem_singleton_self _), ?_⟩
          intro s hs hsid
          rcases List.mem_append.mp hs with hsp | hsx
          · have : s.score ≤ y.score :=
              hyinv.2 s hsp (by rw [hsid, hc.1])
            exact le_trans this (le_of_lt hc.2)
          · rw [List.mem_singleton.mp hsx]
        · rw [if_neg hc] at hye
          subst hye
          refine ⟨List.mem_append_left _ hyinv.1, ?_⟩
          intro s hs hsid
          rcases List.mem_append.mp hs with hsp | hsx
          · exact hyinv.2 s hsp hsid
          · rw [List.mem_singleton.mp hsx] at hsid ⊢
            by_cases hid : y.document.id = x.document.id
            · have hnl : ¬ y.score < x.score := fun hl => hc ⟨hid, hl⟩
              exact le_of_not_lt hnl
            · exact absurd hsid.symm hid
      · rw [if_neg hm] at hr
        rcases List.mem_append.mp hr with hy | hx
        · have hyinv := h1 r hy
          refine ⟨List.mem_append_left _ hyinv.1, ?_⟩
          intro s hs hsid
          rcases List.mem_append.mp hs with hsp | hsx
          · exact hyinv.2 s hsp hsid
          · exfalso
            rw [List.mem_singleton.mp hsx] at hsid
            apply hm
            rw [any_id_iff, hsid]
            exact List.mem_map.mpr ⟨r, hy, rfl⟩
        · rw [List.mem_singleton.mp hx]
          refine ⟨List.mem_append_right _ (List.mem_singleton_self _), ?_⟩
          intro s hs hsid
          rcases List.mem_append.mp hs with hsp | hsx
          · exfalso
            apply hm
            rw [any_id_iff, ← hsid]
            exact h2 s hsp
          · rw [List.mem_singleton.mp hsx]
    have hstep2 : ∀ s ∈ p ++ [x],
        s.document.id ∈ docIds (insertUnique acc x) := by
      intro s hs
      rw [docIds_insertUnique]
      rcases List.mem_append.mp hs with hsp | hsx
      · have := h2 s hsp
        by_cases hx2 : x.document.id ∈ docIds acc
        · rw [if_pos hx2]; exact this
        · rw [if_neg hx2]; exact List.mem_append_left _ this
      · rw [List.mem_singleton.mp hsx]
        by_cases hx2 : x.document.id ∈ docIds acc
        · rw [if_pos hx2]; exact hx2
        · rw [if_neg hx2]
          exact List.mem_append_right _ (List.mem_singleton_self _)
    have key := ih (p ++ [x]) (insertUnique acc x) hstep1 hstep2
    constructor
    · intro r hr
      have := key.1 r hr
      refine ⟨by simpa using this.1, ?_⟩
      intro s hs
      apply this.2 s
      simpa using hs
    · intro s hs
      apply key.2 s
      simpa using hs

theorem dedup_mem_best (l : List SearchResult) :
    ∀ r ∈ dedupById l, r ∈ l ∧
      ∀ s ∈ l, s.document.id = r.document.id → s.score ≤ r.score := by
  have h := foldl_insertUnique_spec l [] []
    (by intro r hr; cases hr) (by intro s hs; cases hs)
  intro r hr
  have := h.1 r hr
  exact ⟨by simpa using this.1, fun s hs => this.2 s (by simpa using hs)⟩

theorem dedup_ids_cover (l : List SearchResult) :
    ∀ s ∈ l, s.document.id ∈ docIds (dedupById l) := by
  have h := foldl_insertUnique_spec l [] []
    (by intro r hr; cases hr) (by intro s hs; cases hs)
  intro s hs
  exact h.2 s (by simpa using hs)

theorem pairwise_of_all {R : SearchResult → SearchResult → Prop}
    (l : List SearchResult) (h : ∀ a ∈ l, ∀ b ∈ l, R a b) : l.Pairwise R := by
  induction l with
  | nil => exact List.Pairwise.nil
  | cons x xs ih =>
    refine List.pairwise_cons.mpr ⟨?_, ?_⟩
    · intro y hy
      exact h x (List.mem_cons_self _ _) y (List.mem_cons.mpr (Or.inr hy))
    · exact ih (fun a ha b hb =>
        h a (List.mem_cons.mpr (Or.inr ha)) b (List.mem_cons.mpr (Or.inr hb)))

theorem foldl_insertUnique_pairwise (S : List String)
    (l : List SearchResult) :
    ∀ acc : List SearchResult,
      acc.Pairwise (fun a b => b.document.id ∈ S → a.document.id ∈ S) →
      (∀ id ∈ S, id ∈ docIds acc) →
      (List.foldl insertUnique acc l).Pairwise
        (fun a b => b.document.id ∈ S → a.document.id ∈ S) := by
  induction l with
  | nil => intro acc h _; simpa using h
  | cons x xs ih =>
    intro acc hpw hsub
    rw [List.foldl_cons]
    apply ih
    · unfold insertUnique
      by_cases hm : (acc.any fun y => y.document.id == x.document.id) = true
      · rw [if_pos hm]
        rw [List.pairwise_map]
        refine hpw.imp ?_
        intro a b hab
        rw [updateEntry_id, updateEntry_id]
        exact hab
      · rw [if_neg hm]
        rw [List.pairwise_append]
        refine ⟨hpw, List.pairwise_singleton _ _, ?_⟩
        intro a ha b hb
        rw [List.mem_singleton.mp hb]
        intro hxS
        exfalso
        apply hm
        rw [any_id_iff]
        exact hsub _ hxS
    · intro id hid
      have := hsub id hid
      rw [docIds_insertUnique]
      by_cases hx : x.document.id ∈ docIds acc
      · rw [if_pos hx]; exact this
      · rw [if_neg hx]; exact List.mem_append_left _ this

theorem dedup_append_exfirst (ex sem : List SearchResult) :
    (dedupById (ex ++ sem)).Pairwise
      (fun a b => b.document.id ∈ docIds ex → a.document.id ∈ docIds ex) := by
  unfold dedupById
  rw [List.foldl_append]
  apply foldl_insertUnique_pairwise (docIds ex) sem
  · apply pairwise_of_all
    intro a ha b hb
    intro _
    have := (dedup_mem_best ex a ha).1
    exact List.mem_map.mpr ⟨a, this, rfl⟩
  · intro id hid
    rcases List.mem_map.mp hid with ⟨s, hs, hse⟩
    rw [← hse]
    exact dedup_ids_cover ex s hs

theorem filterMap_length_mono {α β : Type} (f g : α → Option β)
    (h : ∀ a, (g a).isSome = true → f a = g a) (l : List α) :
    (l.filterMap g).length ≤ (l.filterMap f).length := by
  induction l with
  | nil => exact le_refl _
  | cons a as ih =>
    rw [List.filterMap_cons, List.filterMap_cons]
    cases hg : g a with
    | none =>
      cases hf : f a with
      | none => exact ih
      | some b => exact le_trans ih (by simp)
    | some b =>
      rw [h a (by rw [hg]; rfl), hg]
      simpa using ih

theorem mem_take_or_full {α : Type} (l : List α) (k : Nat) (a : α)
    (ha : a ∈ l) : a ∈ l.take k ∨ (l.take k).length = k := by
  by_cases h : l.length ≤ k
  · left
    rw [List.take_of_length_le h]
    exact ha
  · right
    rw [List.length_take]
    omega

theorem faissAssemble_mono (documents : List (String × FDoc)) (t1 t2 : ℚ)
    (h : t1 ≤ t2) (cands : List (ℚ × Int)) :
    (faissAssemble documents t2 cands).length ≤
      (faissAssemble documents t1 cands).length := by
  unfold faissAssemble
  apply filterMap_length_mono
  intro c hsome
  by_cases h2 : t2 ≤ c.1 ∧ c.2 ≠ -1
  · rw [if_pos h2, if_pos ⟨le_trans h h2.1, h2.2⟩]
  · rw [if_neg h2] at hsome
    cases hsome

theorem faissAssemble_bound (documents : List (String × FDoc)) (t : ℚ)
    (cands : List (ℚ × Int)) :
    ∀ r ∈ faissAssemble documents t cands, t ≤ r.relevance_score := by
  intro r hr
  unfold faissAssemble at hr
  rcases List.mem_filterMap.mp hr with ⟨c, _, hc⟩
  by_cases h2 : t ≤ c.1 ∧ c.2 ≠ -1
  · rw [if_pos h2] at hc
    cases hd : documents.get? c.2.toNat with
    | none => rw [hd] at hc; cases hc
    | some p =>
      rw [hd] at hc
      have : r.relevance_score = c.1 := by
        cases Option.some.inj hc
        rfl
      rw [this]
      exact h2.1
  · rw [if_neg h2] at hc
    cases hc

theorem optFold_len_mono (cache : List (String × StoredDoc)) (k : Nat)
    (t1 t2 : ℚ) (h : t1 ≤ t2) (cands : List (ℚ × Int)) :
    ∀ acc1 acc2 : List VSearchResult, acc2.length ≤ acc1.length →
      (List.foldl (optStep cache k t2) acc2 cands).length ≤
        (List.foldl (optStep cache k t1) acc1 cands).length := by
  induction cands with
  | nil => intro a1 a2 hl; simpa using hl
  | cons c cs ih =>
    intro a1 a2 hl
    rw [List.foldl_cons, List.foldl_cons]
    apply ih
    unfold optStep
    by_cases h2 : t2 ≤ c.1 ∧ a2.length < k
    · have h1p : t1 ≤ c.1 := le_trans h h2.1
      rw [if_pos h2]
      by_cases h1c : t1 ≤ c.1 ∧ a1.length < k
      · rw [if_pos h1c]
        cases lookupDoc cache (toString c.2) with
        | none => exact hl
        | some d => simpa using hl
      · rw [if_neg h1c]
        have hfull : ¬ a1.length < k := fun hlt => h1c ⟨h1p, hlt⟩
        cases lookupDoc cache (toString c.2) with
        | none => exact hl
        | some d =>
          simp only [List.length_append, List.length_singleton]
          omega
    · rw [if_neg h2]
      by_cases h1c : t1 ≤ c.1 ∧ a1.length < k
      · rw [if_pos h1c]
        cases lookupDoc cache (toString c.2) with
        | none => exact hl
        | some d => exact le_trans hl (by simp)
      · rw [if_neg h1c]
        exact hl

theorem optFold_bound (cache : List (String × StoredDoc)) (k : Nat) (t : ℚ)
    (cands : List (ℚ × Int)) :
    ∀ acc : List VSearchResult, (∀ r ∈ acc, t ≤ r.relevance_score) →
      ∀ r ∈ List.foldl (optStep cache k t) acc cands,
        t ≤ r.relevance_score := by
  induction cands with
  | nil => intro acc hacc; simpa using hacc
  | cons c cs ih =>
    intro acc hacc
    rw [List.foldl_cons]
    apply ih
    unfold optStep
    by_cases h2 : t ≤ c.1 ∧ acc.length < k
    · rw [if_pos h2]
      cases lookupDoc cache (toString c.2) with
      | none => exact hacc
      | some d =>
        intro r hr
        rcases List.mem_append.mp hr with hr1 | hr2
        · exact hacc r hr1
        · rw [List.mem_singleton.mp hr2]
          exact h2.1
    · rw [if_neg h2]
      exact hacc

theorem saveDocument_untrained_ivf_err (enc : String → List ℚ)
    (st : OptState) (d : StoredDoc) (ht : st.indexType = "IndexIVFFlat")
    (hu : st.isTrained = false) (hn : 1 < st.nlist) :
    saveDocument enc st d = .error .trainTooFewPoints := by
  simp [saveDocument, ivfTrain, ht, hu, hn]

theorem addDocuments_untrained_ivf_noop (enc : String → List ℚ)
    (ds : List StoredDoc) :
    ∀ st : OptState, st.indexType = "IndexIVFFlat" → st.isTrained = false →
      1 < st.nlist → addDocuments enc st ds = ([], st) := by
  induction ds with
  | nil =>
    intro st _ _ _
    rfl
  | cons d rest ih =>
    intro st ht hu hn
    unfold addDocuments
    rw [saveDocument_untrained_ivf_err enc st d ht hu hn]
    exact ih st ht hu hn

theorem any_fst_iff {β : Type} (m : List (String × β)) (k : String) :
    (m.any (fun p => p.1 == k) = true) ↔ k ∈ m.map Prod.fst := by
  simp only [List.any_eq_true, beq_iff_eq, List.mem_map]

/-! Claim theorems.  The section makes the Batteries rational arithmetic
unfoldable again so that concrete runs evaluate inside decide. -/

section ClaimTheorems

attribute [local semireducible] Rat.mul Rat.add Rat.sub Rat.inv
  Rat.ofScientific

/-- C1: the claim states that the id assigned at ingestion equals the row
position of the vector in the index, that every search position resolves
through the store to the document whose vector occupies that row, and that
this alignment is preserved by every operation including
delete-with-rebuild.  The code breaks the invariant on deletion: after
saving two documents (ids zero and one) the state is aligned, but deleting
id zero leaves the survivor keyed one while its vector moves to row zero, so
row zero resolves to nothing; a following save then hands out id one again,
overwriting the survivor in the store while the index keeps both rows. -/
theorem c1_delete_breaks_id_row_alignment :
    alignedB encLen c1AfterSaves = true ∧
    c1AfterDelete.1 = true ∧
    alignedB encLen c1AfterDelete.2 = false ∧
    c1AfterReuse.1 = ["1"] ∧
    c1AfterReuse.2.docs.length = 1 ∧
    c1AfterReuse.2.index.length = 2 := by
  decide

/-- C2: whenever the exact pass yields at least one result whose overlap
score exceeds the strong-match bound of one half, the hybrid search returns
exactly those strong exact results truncated to top_k, the output does not
depend on the semantic strategy at all, and every returned result is an
exact result with score above one half carrying the exact provenance tag. -/
theorem c2_strong_exact_short_circuit (exS semS : Strategy) (query : String)
    (documents : List VectorDocument) (top_k : Nat)
    (hne : (exS query documents top_k).filter
      (fun r => decide ((1 : ℚ)/2 < r.score)) ≠ [])
    (htags : ∀ r ∈ exS query documents top_k, r.search_type = "exact") :
    hybridSearch exS semS query documents top_k =
      ((exS query documents top_k).filter
        (fun r => decide ((1 : ℚ)/2 < r.score))).take top_k ∧
    (∀ semS2 : Strategy, hybridSearch exS semS2 query documents top_k =
      hybridSearch exS semS query documents top_k) ∧
    (∀ r ∈ hybridSearch exS semS query documents top_k,
      r ∈ exS query documents top_k ∧ (1 : ℚ)/2 < r.score ∧
        r.search_type = "exact") := by
  have hni : ¬ (((exS query documents top_k).filter
      (fun r => decide ((1 : ℚ)/2 < r.score))).isEmpty = true) := by
    intro hc
    exact hne (List.isEmpty_iff.mp hc)
  have hmain : ∀ s2 : Strategy, hybridSearch exS s2 query documents top_k =
      ((exS query documents top_k).filter
        (fun r => decide ((1 : ℚ)/2 < r.score))).take top_k := by
    intro s2
    simp only [hybridSearch]
    rw [if_neg hni]
  refine ⟨hmain semS, fun s2 => (hmain s2).trans (hmain semS).symm, ?_⟩
  intro r hr
  rw [hmain semS] at hr
  have hf := List.mem_filter.mp (List.take_subset _ _ hr)
  exact ⟨hf.1, of_decide_eq_true hf.2, htags r hf.1⟩

/-- Witness for C2 at a concrete strong exact match. -/
theorem c2_strong_exact_short_circuit_witness :
    hybridSearch (fun _ _ _ => exStrong) (fun _ _ _ => semTie) "qq" [docA] 1 =
      (exStrong.filter (fun r => decide ((1 : ℚ)/2 < r.score))).take 1 ∧
    (∀ semS2 : Strategy,
      hybridSearch (fun _ _ _ => exStrong) semS2 "qq" [docA] 1 =
      hybridSearch (fun _ _ _ => exStrong) (fun _ _ _ => semTie) "qq" [docA] 1) ∧
    (∀ r ∈ hybridSearch (fun _ _ _ => exStrong) (fun _ _ _ => semTie)
        "qq" [docA] 1,
      r ∈ exStrong ∧ (1 : ℚ)/2 < r.score ∧ r.search_type = "exact") :=
  c2_strong_exact_short_circuit (fun _ _ _ => exStrong) (fun _ _ _ => semTie)
    "qq" [docA] 1 (by decide) (by decide)

/-- C4: the claim states that a mutation between two identical searches
invalidates the result cache so that the second search reflects the mutated
collection.  The code never invalidates: after an empty-store search is
cached, ingesting a matching document and repeating the identical search
returns the stale cached empty list, while the same search recomputed
against the mutated collection returns the new document. -/
theorem c4_result_cache_never_invalidated :
    c4Second.1 = [] ∧
    c4Fresh.1 = [{ document_id := "0", content := "a",
                   relevance_score := 1, distance := 0 }] ∧
    c4Second.1 ≠ c4Fresh.1 := by
  decide

/-- C5: the claim states that after a save and load round trip the document
loaded at position i corresponds to row i of the index for every ingestion
history.  The loader sorts manifest keys as strings, so with eleven
ingested documents the key order becomes 0, 1, 10, 2, ... and the document
loaded at position two is the former document ten while row two still holds
the embedding of document two; with up to ten documents the round trip is
aligned. -/
theorem c5_manifest_string_sort_misaligns :
    roundTripAlignedB encLen c5Small = true ∧
    roundTripAlignedB encLen c5Big = false ∧
    c5Big.index.length = 11 := by
  decide

/-- C6: raising the caller-supplied threshold never increases the number of
results of the similarity search, in both repository implementations, and
every returned result scores at least the threshold. -/
theorem c6_threshold_monotonicity (documents : List (String × FDoc))
    (cache : List (String × StoredDoc)) (top_k : Nat) (t1 t2 : ℚ)
    (cands : List (ℚ × Int)) (h : t1 ≤ t2) :
    (faissAssemble documents t2 cands).length ≤
      (faissAssemble documents t1 cands).length ∧
    (optAssemble cache top_k t2 cands).length ≤
      (optAssemble cache top_k t1 cands).length ∧
    (∀ r ∈ faissAssemble documents t2 cands, t2 ≤ r.relevance_score) ∧
    (∀ r ∈ optAssemble cache top_k t2 cands, t2 ≤ r.relevance_score) := by
  refine ⟨faissAssemble_mono documents t1 t2 h cands, ?_,
    faissAssemble_bound documents t2 cands, ?_⟩
  · unfold optAssemble
    exact optFold_len_mono cache top_k t1 t2 h cands [] [] (le_refl _)
  · unfold optAssemble
    exact optFold_bound cache top_k t2 cands [] (by intro r hr; cases hr)

/-- Witness for C6 at concrete candidates and thresholds. -/
theorem c6_threshold_monotonicity_witness :
    (faissAssemble fStateA.documents (7/10) [(1, 0), (2/5, -1)]).length ≤
      (faissAssemble fStateA.documents (3/10) [(1, 0), (2/5, -1)]).length ∧
    (optAssemble oStateA.docs 5 (7/10) [(1, 0), (2/5, -1)]).length ≤
      (optAssemble oStateA.docs 5 (3/10) [(1, 0), (2/5, -1)]).length ∧
    (∀ r ∈ faissAssemble fStateA.documents (7/10) [(1, 0), (2/5, -1)],
      (7 : ℚ)/10 ≤ r.relevance_score) ∧
    (∀ r ∈ optAssemble oStateA.docs 5 (7/10) [(1, 0), (2/5, -1)],
      (7 : ℚ)/10 ≤ r.relevance_score) :=
  c6_threshold_monotonicity fStateA.documents oStateA.docs 5 (3/10) (7/10)
    [(1, 0), (2/5, -1)] (by decide)

/-- C8: the claim states that ingestion trains the IVF index on the first
sufficiently large batch before any vectors are added and that consecutive
batches then insert successfully.  The code never collects a batch for
training: save_document trains an untrained IVF index on the single
embedding of the current document, and FAISS rejects a training sample
smaller than nlist, so with more than one cluster the very first save
raises, add_documents catches the exception per document and skips it, and
no document of any batch is ever trained, added or stored: the ids list
comes back empty and the index stays empty and untrained. -/
theorem c8_ivf_ingestion_never_trains (enc : String → List ℚ) (nlist : Nat)
    (d : StoredDoc) (ds : List StoredDoc) (hn : 1 < nlist) :
    saveDocument enc (initState "IndexIVFFlat" nlist) d =
      .error .trainTooFewPoints ∧
    addDocuments enc (initState "IndexIVFFlat" nlist) ds =
      ([], initState "IndexIVFFlat" nlist) ∧
    (addDocuments enc (initState "IndexIVFFlat" nlist) ds).2.isTrained
      = false ∧
    (addDocuments enc (initState "IndexIVFFlat" nlist) ds).2.index = [] := by
  have ht : (initState "IndexIVFFlat" nlist).indexType = "IndexIVFFlat" :=
    rfl
  have hu : (initState "IndexIVFFlat" nlist).isTrained = false := by
    simp [initState]
  have hn2 : 1 < (initState "IndexIVFFlat" nlist).nlist := hn
  have hadd := addDocuments_untrained_ivf_noop enc ds
    (initState "IndexIVFFlat" nlist) ht hu hn2
  refine ⟨saveDocument_untrained_ivf_err enc _ d ht hu hn2, hadd, ?_, ?_⟩
  · rw [hadd]
    exact hu
  · rw [hadd]
    rfl

/-- Witness for C8 at the hundred-cluster IVF index of the constructor
default and the spec scenario, with a concrete two-document batch. -/
theorem c8_ivf_ingestion_never_trains_witness :
    saveDocument encLen (initState "IndexIVFFlat" 100) { content := "x" } =
      .error .trainTooFewPoints ∧
    addDocuments encLen (initState "IndexIVFFlat" 100) (mkDocs 2) =
      ([], initState "IndexIVFFlat" 100) ∧
    (addDocuments encLen (initState "IndexIVFFlat" 100)
      (mkDocs 2)).2.isTrained = false ∧
    (addDocuments encLen (initState "IndexIVFFlat" 100)
      (mkDocs 2)).2.index = [] :=
  c8_ivf_ingestion_never_trains encLen 100 { content := "x" } (mkDocs 2)
    (by decide)

/-- C10: delete_document with an absent id returns false and leaves the
whole state unchanged, and with a present id returns true after which the
store no longer contains that id, in both repository implementations. -/
theorem c10_delete_document_contract (fst : FaissState) (ost : OptState)
    (enc : String → List ℚ) (fid oid : String) :
    (fid ∉ fst.documents.map Prod.fst → faissDelete fst fid = (false, fst)) ∧
    (fid ∈ fst.documents.map Prod.fst →
      (faissDelete fst fid).1 = true ∧
        fid ∉ (faissDelete fst fid).2.documents.map Prod.fst) ∧
    (oid ∉ ost.docs.map Prod.fst → optDelete enc ost oid = (false, ost)) ∧
    (oid ∈ ost.docs.map Prod.fst →
      (optDelete enc ost oid).1 = true ∧
        oid ∉ (optDelete enc ost oid).2.docs.map Prod.fst) := by
  refine ⟨?_, ?_, ?_, ?_⟩
  · intro habs
    unfold faissDelete
    rw [if_neg (fun hc => habs ((any_fst_iff _ _).mp hc))]
  · intro hpres
    unfold faissDelete
    rw [if_pos ((any_fst_iff _ _).mpr hpres)]
    refine ⟨rfl, ?_⟩
    intro hc
    rcases List.mem_map.mp hc with ⟨p, hp, he⟩
    have := List.mem_filter.mp hp
    rw [Bool.not_eq_true', beq_eq_false_iff_ne] at this
    exact this.2 he
  · intro habs
    unfold optDelete
    rw [if_neg (fun hc => habs ((any_fst_iff _ _).mp hc))]
  · intro hpres
    unfold optDelete
    rw [if_pos ((any_fst_iff _ _).mpr hpres)]
    refine ⟨rfl, ?_⟩
    intro hc
    rcases List.mem_map.mp hc with ⟨p, hp, he⟩
    have := List.mem_filter.mp hp
    rw [Bool.not_eq_true', beq_eq_false_iff_ne] at this
    exact this.2 he

/-- Witness for C10 on concrete one-document states, for both the absent
and the present id. -/
theorem c10_delete_document_contract_witness :
    faissDelete fStateA "zzz" = (false, fStateA) ∧
    (faissDelete fStateA "d0").1 = true ∧
    "d0" ∉ (faissDelete fStateA "d0").2.documents.map Prod.fst ∧
    optDelete encUnit oStateA "zzz" = (false, oStateA) ∧
    (optDelete encUnit oStateA "0").1 = true ∧
    "0" ∉ (optDelete encUnit oStateA "0").2.docs.map Prod.fst := by
  have h1 := (c10_delete_document_contract fStateA oStateA encUnit
    "zzz" "zzz").1 (by decide)
  have h2 := (c10_delete_document_contract fStateA oStateA encUnit
    "d0" "0").2.1 (by decide)
  have h3 := (c10_delete_document_contract fStateA oStateA encUnit
    "zzz" "zzz").2.2.1 (by decide)
  have h4 := (c10_delete_document_contract fStateA oStateA encUnit
    "d0" "0").2.2.2 (by decide)
  exact ⟨h1, h2.1, h2.2, h3, h4.1, h4.2⟩

/-- C3 counterexample: the claim orders exact results before semantic
results on score ties, but when a semantic result replaces an exact entry
for the same document it inherits the earlier slot.  With exact results A
at three tenths and B at two fifths, and a semantic result A at two fifths,
the merged output is the semantic A first and the exact B second with equal
scores: a semantic result precedes an exact result on a tie. -/
theorem c3_tie_order_counterexample :
    (hybridSearch (fun _ _ _ => exTie) (fun _ _ _ => semTie) "q"
        [docA, docB] 5).map (fun r => (r.search_type, r.score)) =
      [("semantic", 2/5), ("exact", 2/5)] := by
  decide

/-- C3 (amended): when no exact result exceeds the strong-match bound, the
merged hybrid output contains every document id at most once, each kept
entry comes from the combined input and carries the best score among all
entries for its document id, the output is sorted by nonincreasing score
and truncated to top_k, and on score ties an entry can precede an
exact-provenance entry only if its own document was also found by the exact
pass (ties are broken by first occurrence in the exact-then-semantic
concatenation, not by provenance). -/
theorem c3_merge_dedup_sort_amended (exS semS : Strategy) (query : String)
    (documents : List VectorDocument) (top_k : Nat)
    (hweak : (exS query documents top_k).filter
      (fun r => decide ((1 : ℚ)/2 < r.score)) = [])
    (hsemTags : ∀ r ∈ semS query documents top_k,
      r.search_type = "semantic") :
    (docIds (hybridSearch exS semS query documents top_k)).Nodup ∧
    (∀ r ∈ hybridSearch exS semS query documents top_k,
      r ∈ exS query documents top_k ++ semS query documents top_k ∧
      ∀ s ∈ exS query documents top_k ++ semS query documents top_k,
        s.document.id = r.document.id → s.score ≤ r.score) ∧
    (hybridSearch exS semS query documents top_k).Pairwise
      (fun a b => b.score ≤ a.score) ∧
    (hybridSearch exS semS query documents top_k).length ≤ top_k ∧
    (hybridSearch exS semS query documents top_k).Pairwise
      (fun a b => a.score = b.score → b.search_type = "exact" →
        a.document.id ∈ docIds (exS query documents top_k)) := by
  have hout : hybridSearch exS semS query documents top_k =
      (sortBy srLe (dedupById (exS query documents top_k ++
        semS query documents top_k))).take top_k := by
    simp only [hybridSearch, hweak, List.isEmpty_nil, if_true]
  rw [hout]
  refine ⟨?_, ?_, ?_, ?_, ?_⟩
  · have hperm := sortBy_perm srLe (dedupById (exS query documents top_k ++
      semS query documents top_k))
    have hperm2 : List.Perm
        (docIds (sortBy srLe (dedupById (exS query documents top_k ++
          semS query documents top_k))))
        (docIds (dedupById (exS query documents top_k ++
          semS query documents top_k))) := by
      unfold docIds
      exact hperm.map (fun r => r.document.id)
    have hnd : (docIds (sortBy srLe (dedupById (exS query documents top_k ++
        semS query documents top_k)))).Nodup :=
      hperm2.nodup_iff.mpr (nodup_docIds_dedup _)
    have hmt : docIds ((sortBy srLe (dedupById (exS query documents top_k ++
        semS query documents top_k))).take top_k) =
        (docIds (sortBy srLe (dedupById (exS query documents top_k ++
          semS query documents top_k)))).take top_k :=
      List.map_take _ _ _
    rw [hmt]
    exact List.Nodup.sublist (List.take_sublist _ _) hnd
  · intro r hr
    have hr2 := (mem_sortBy srLe _ r).mp (List.take_subset _ _ hr)
    exact dedup_mem_best _ r hr2
  · have hpw := pairwise_sortBy srLe (fun _ _ => True) srLe_total srLe_trans
      (dedupById (exS query documents top_k ++ semS query documents top_k))
      (pairwise_of_all _ (fun a _ b _ => fun _ => trivial))
    have hpw2 := List.Pairwise.sublist (List.take_sublist top_k _) hpw
    exact hpw2.imp (fun h => of_decide_eq_true h.1)
  · exact List.length_take_le _ _
  · have hR : (dedupById (exS query documents top_k ++
        semS query documents top_k)).Pairwise
        (fun a b => b.search_type = "exact" →
          a.document.id ∈ docIds (exS query documents top_k)) := by
      refine List.Pairwise.imp_of_mem ?_
        (dedup_append_exfirst (exS query documents top_k)
          (semS query documents top_k))
      intro a b ha hb hab hbe
      have hbmem := (dedup_mem_best _ b hb).1
      rcases List.mem_append.mp hbmem with hbe2 | hbs
      · exact hab (List.mem_map.mpr ⟨b, hbe2, rfl⟩)
      · exfalso
        have hsem := hsemTags b hbs
        rw [hsem] at hbe
        exact absurd hbe (by decide)
    have hl := hR.imp
      (fun {a b} h => (fun (_ : srLe b a = true) => h) :
        ∀ {a b : SearchResult},
          (b.search_type = "exact" →
            a.document.id ∈ docIds (exS query documents top_k)) →
          (srLe b a = true → b.search_type = "exact" →
            a.document.id ∈ docIds (exS query documents top_k)))
    have hpw := pairwise_sortBy srLe
      (fun a b => b.search_type = "exact" →
        a.document.id ∈ docIds (exS query documents top_k))
      srLe_total srLe_trans _ hl
    have hpw2 := List.Pairwise.sublist (List.take_sublist top_k _) hpw
    refine hpw2.imp ?_
    intro a b hab heq
    exact hab.2 (decide_eq_true (le_of_eq heq))

/-- Witness for C3 (amended) at the tie counterexample inputs. -/
theorem c3_merge_dedup_sort_amended_witness :
    (docIds (hybridSearch (fun _ _ _ => exTie) (fun _ _ _ => semTie) "q"
      [docA, docB] 5)).Nodup ∧
    (∀ r ∈ hybridSearch (fun _ _ _ => exTie) (fun _ _ _ => semTie) "q"
        [docA, docB] 5,
      r ∈ exTie ++ semTie ∧
      ∀ s ∈ exTie ++ semTie,
        s.document.id = r.document.id → s.score ≤ r.score) ∧
    (hybridSearch (fun _ _ _ => exTie) (fun _ _ _ => semTie) "q"
      [docA, docB] 5).Pairwise (fun a b => b.score ≤ a.score) ∧
    (hybridSearch (fun _ _ _ => exTie) (fun _ _ _ => semTie) "q"
      [docA, docB] 5).length ≤ 5 ∧
    (hybridSearch (fun _ _ _ => exTie) (fun _ _ _ => semTie) "q"
      [docA, docB] 5).Pairwise
      (fun a b => a.score = b.score → b.search_type = "exact" →
        a.document.id ∈ docIds exTie) :=
  c3_merge_dedup_sort_amended (fun _ _ _ => exTie) (fun _ _ _ => semTie)
    "q" [docA, docB] 5 (by decide) (by decide)

/-- C7: when the encoder fails on the query, the hybrid search behaves
exactly as if the semantic pass had returned nothing, it still returns a
result list (no failure is surfaced), and every returned result comes from
the exact pass. -/
theorem c7_encoder_failure_degrades_to_exact (exS : Strategy)
    (enc : String → Except Unit (List ℚ)) (idx : List (List ℚ))
    (ids : List String) (query : String) (documents : List VectorDocument)
    (top_k : Nat) (hfail : enc query = .error ()) :
    hybridSearch exS (semanticSearchStrategy (some enc) (some idx) ids)
        query documents top_k =
      hybridSearch exS (fun _ _ _ => []) query documents top_k ∧
    ∀ r ∈ hybridSearch exS (semanticSearchStrategy (some enc) (some idx) ids)
        query documents top_k, r ∈ exS query documents top_k := by
  have hsem : semanticSearchStrategy (some enc) (some idx) ids query
      documents top_k = [] := by
    simp [semanticSearchStrategy, hfail]
  constructor
  · simp only [hybridSearch, hsem]
  · intro r hr
    simp only [hybridSearch, hsem] at hr
    by_cases hb : ((exS query documents top_k).filter
        (fun r => decide ((1 : ℚ)/2 < r.score))).isEmpty = true
    · rw [if_pos hb] at hr
      have hr2 := (mem_sortBy srLe _ r).mp (List.take_subset _ _ hr)
      have := (dedup_mem_best _ r hr2).1
      simpa using this
    · rw [if_neg hb] at hr
      exact (List.mem_filter.mp (List.take_subset _ _ hr)).1

/-- Witness for C7 with the always-failing encoder on concrete inputs. -/
theorem c7_encoder_failure_degrades_to_exact_witness :
    hybridSearch (fun _ _ _ => exTie)
        (semanticSearchStrategy (some encFail) (some [[1]]) ["A"])
        "q" [docA] 3 =
      hybridSearch (fun _ _ _ => exTie) (fun _ _ _ => []) "q" [docA] 3 ∧
    ∀ r ∈ hybridSearch (fun _ _ _ => exTie)
        (semanticSearchStrategy (some encFail) (some [[1]]) ["A"])
        "q" [docA] 3, r ∈ exTie :=
  c7_encoder_failure_degrades_to_exact (fun _ _ _ => exTie) encFail [[1]]
    ["A"] "q" [docA] 3 rfl

theorem splitWordsAux_chars (cs : List Char) :
    ∀ acc w, w ∈ splitWordsAux cs acc → ∀ c ∈ w.data, c ∈ cs ∨ c ∈ acc := by
  induction cs with
  | nil =>
    intro acc w hw c hc
    unfold splitWordsAux at hw
    by_cases he : acc.isEmpty = true
    · rw [if_pos he] at hw
      cases hw
    · rw [if_neg he] at hw
      rw [List.mem_singleton] at hw
      subst hw
      right
      simpa using hc
  | cons x xs ih =>
    intro acc w hw c hc
    unfold splitWordsAux at hw
    by_cases hx : isWordChar x = true
    · rw [if_pos hx] at hw
      rcases ih (x :: acc) w hw c hc with h1 | h2
      · exact Or.inl (List.mem_cons_of_mem _ h1)
      · rcases List.mem_cons.mp h2 with rfl | h3
        · exact Or.inl (List.mem_cons_self _ _)
        · exact Or.inr h3
    · rw [if_neg hx] at hw
      by_cases he : acc.isEmpty = true
      · rw [if_pos he] at hw
        rcases ih [] w hw c hc with h1 | h2
        · exact Or.inl (List.mem_cons_of_mem _ h1)
        · cases h2
      · rw [if_neg he] at hw
        rcases List.mem_cons.mp hw with rfl | h3
        · right
          simpa using hc
        · rcases ih [] w h3 c hc with h1 | h2
          · exact Or.inl (List.mem_cons_of_mem _ h1)
          · cases h2

/-- C9: the exact searcher draws its query words from the lowercased query,
keeping only tokens longer than two characters that are not stop words;
every returned result carries the overlap score of its document, computed
as the matched word count over the total query word count, is kept only
when that score is positive (the minimum overlap fraction of this
strategy), and is tagged with exact provenance; the output is sorted by
nonincreasing overlap score and holds at most top_k results; and every
document with a positive score appears in the output unless the output was
truncated at exactly top_k results. -/
theorem c9_exact_search_contract (query : String)
    (documents : List VectorDocument) (top_k : Nat) :
    (∀ w ∈ extractKeywords (lowerStr query),
      2 < w.length ∧ w ∉ stopWords ∧
        ∀ c ∈ w.data, c ∈ (lowerStr query).data) ∧
    (∀ r ∈ exactSearch query documents top_k,
      r.document ∈ documents ∧
      r.score = calculateExactScore (extractKeywords (lowerStr query))
        (lowerStr r.document.text) ∧
      0 < r.score ∧ r.search_type = "exact") ∧
    (exactSearch query documents top_k).Pairwise
      (fun a b => b.score ≤ a.score) ∧
    (exactSearch query documents top_k).length ≤ top_k ∧
    (∀ d ∈ documents,
      0 < calculateExactScore (extractKeywords (lowerStr query))
        (lowerStr d.text) →
      (∃ r ∈ exactSearch query documents top_k, r.document = d) ∨
        (exactSearch query documents top_k).length = top_k) := by
  refine ⟨?_, ?_, ?_, ?_, ?_⟩
  · intro w hw
    unfold extractKeywords at hw
    have hf := List.mem_filter.mp hw
    have hb : (!stopWords.contains w) = true ∧
        decide (2 < w.length) = true := by
      simpa using hf.2
    refine ⟨of_decide_eq_true hb.2, ?_, ?_⟩
    · intro hmem
      have : stopWords.contains w = true := List.elem_eq_true_of_mem hmem
      rw [this] at hb
      cases hb.1
    · intro c hc
      rcases splitWordsAux_chars (lowerStr query).data [] w hf.1 c hc with
        h1 | h2
      · exact h1
      · cases h2
  · intro r hr
    simp only [exactSearch] at hr
    have hr2 := (mem_sortBy srLe _ r).mp (List.take_subset _ _ hr)
    rcases List.mem_filterMap.mp hr2 with ⟨d, hd, hfd⟩
    by_cases hpos :
        0 < calculateExactScore (extractKeywords (lowerStr query))
          (lowerStr d.text)
    · rw [if_pos hpos] at hfd
      cases Option.some.inj hfd
      exact ⟨hd, rfl, hpos, rfl⟩
    · rw [if_neg hpos] at hfd
      cases hfd
  · have hgen : ∀ L : List SearchResult,
        ((sortBy srLe L).take top_k).Pairwise
          (fun a b => b.score ≤ a.score) := by
      intro L
      have hpw := pairwise_sortBy srLe (fun _ _ => True) srLe_total
        srLe_trans L (pairwise_of_all L (fun a _ b _ => fun _ => trivial))
      have hpw2 := List.Pairwise.sublist (List.take_sublist top_k _) hpw
      exact hpw2.imp (fun h => of_decide_eq_true h.1)
    simp only [exactSearch]
    exact hgen _
  · simp only [exactSearch]
    exact List.length_take_le _ _
  · intro d hd hpos
    simp only [exactSearch]
    have hmem : (⟨d, calculateExactScore (extractKeywords (lowerStr query))
        (lowerStr d.text), "exact"⟩ : SearchResult) ∈
        documents.filterMap (fun d2 =>
          if 0 < calculateExactScore (extractKeywords (lowerStr query))
              (lowerStr d2.text) then
            some ⟨d2, calculateExactScore (extractKeywords (lowerStr query))
              (lowerStr d2.text), "exact"⟩
          else none) :=
      List.mem_filterMap.mpr ⟨d, hd, by rw [if_pos hpos]⟩
    have hmem2 := (mem_sortBy srLe _ _).mpr hmem
    rcases mem_take_or_full _ top_k _ hmem2 with h1 | h2
    · exact Or.inl ⟨_, h1, rfl⟩
    · exact Or.inr h2

/-- Witness for C9 at the concrete spec scenario documents and query. -/
theorem c9_exact_search_contract_witness :
    (∀ w ∈ extractKeywords (lowerStr "запрещённая книга"),
      2 < w.length ∧ w ∉ stopWords ∧
        ∀ c ∈ w.data, c ∈ (lowerStr "запрещённая книга").data) ∧
    (∀ r ∈ exactSearch "запрещённая книга" docsRu 5,
      r.document ∈ docsRu ∧
      r.score = calculateExactScore
        (extractKeywords (lowerStr "запрещённая книга"))
        (lowerStr r.document.text) ∧
      0 < r.score ∧ r.search_type = "exact") ∧
    (exactSearch "запрещённая книга" docsRu 5).Pairwise
      (fun a b => b.score ≤ a.score) ∧
    (exactSearch "запрещённая книга" docsRu 5).length ≤ 5 ∧
    (∀ d ∈ docsRu,
      0 < calculateExactScore
        (extractKeywords (lowerStr "запрещённая книга"))
        (lowerStr d.text) →
      (∃ r ∈ exactSearch "запрещённая книга" docsRu 5, r.document = d) ∨
        (exactSearch "запрещённая книга" docsRu 5).length = 5) :=
  c9_exact_search_contract "запрещённая книга" docsRu 5

end ClaimTheorems

end RagSpec
